import Mathlib

/-- Wide strings from the source (`wcstring`) are modelled as lists of characters. -/
abbrev WStr := List Char

/-- `iswalnum(c) || c == '_'`, the characters allowed in a variable name. -/
def is_word_char (c : Char) : Bool := c.isAlphanum || c == '_'

/-- `iswspace`. -/
def is_space_char (c : Char) : Bool := c.isWhitespace

/-- Numeric value of a digit run, most significant first. -/
def natOfDigits (ds : List Char) : Nat :=
  ds.foldl (fun acc c => acc * 10 + (c.toNat - '0'.toNat)) 0

/-- Modelled from the spec: the external helper `fish_wcstol` (a `wcstol` wrapper from
the repository's `wutil`, not under `src/`).  It skips leading whitespace, parses an
optional sign followed by a digit run, and reports the first unconsumed character.
`none` models `errno > 0` (no valid integer); `some (v, rest)` models a successful
parse, covering both `errno == 0` (string exhausted) and `errno == -1` (trailing
characters), a distinction the caller `parse_index` ignores. -/
def fish_wcstol (s : WStr) : Option (Int × WStr) :=
  let s1 := s.dropWhile is_space_char
  let signAndRest : Bool × WStr :=
    match s1 with
    | '-' :: t => (true, t)
    | '+' :: t => (false, t)
    | _ => (false, s1)
  let digits := signAndRest.2.takeWhile Char.isDigit
  let rest := signAndRest.2.dropWhile Char.isDigit
  if digits.isEmpty then none
  else some ((if signAndRest.1 then -(natOfDigits digits : Int) else (natOfDigits digits : Int)), rest)

/-- Messages appended to the error stream (`streams.err`).  Each constructor stands for
one `append_format` in the source; all of those formats begin with `"%ls: "` applied to
the invoking command's name (the literal `L"set"` or `argv[0]`), so every `ErrMsg`
carries the command-name prefix.  `helpText` stands for `builtin_print_help` writing the
usage text to the error stream. -/
inductive ErrMsg where
  | argCount : ErrMsg
  | multipleNames (name src : WStr) : ErrMsg
  | invalidIndex (rest : WStr) : ErrMsg
  | boundsErr : ErrMsg
  | pathError (key dir : WStr) : ErrMsg
  | pathHint (key suffixPart : WStr) : ErrMsg
  | permErr (key : WStr) : ErrMsg
  | scopeErr (key : WStr) : ErrMsg
  | invalidErr (key : WStr) : ErrMsg
  | helpText : ErrMsg
  deriving DecidableEq, Repr

/-- `if (l_ind < 0) l_ind = var_count + l_ind + 1;` -- the sign resolution step of
`parse_index` (builtin_set.cpp:195 and 206-208), applied to each parsed integer. -/
def resolve_index (var_count : Nat) (l_ind : Int) : Int :=
  if l_ind < 0 then (var_count : Int) + l_ind + 1 else l_ind

/-- The body of the range-expansion loop
`for (jjj = l_ind; jjj * direction <= l_ind2 * direction; jjj += direction)` of
`parse_index` (builtin_set.cpp:210-214).  The `fuel` argument is the exact number of
remaining iterations plus one, supplied by `range_expand`; it only makes the recursion
structural. -/
def range_loop (direction l_ind2 : Int) : Nat → Int → List Int
  | 0, _ => []
  | fuel + 1, jjj =>
    if jjj * direction ≤ l_ind2 * direction then
      jjj :: range_loop direction l_ind2 fuel (jjj + direction)
    else []

/-- `int direction = l_ind2 < l_ind ? -1 : 1;` followed by the expansion loop
(builtin_set.cpp:209-214).  The loop runs `(l_ind2 - l_ind) * direction + 1` times. -/
def range_expand (l_ind l_ind2 : Int) : List Int :=
  let direction : Int := if l_ind2 < l_ind then -1 else 1
  range_loop direction l_ind2 ((l_ind2 * direction - l_ind * direction).toNat + 1) l_ind

/-- The `while (*src != L']')` loop of `parse_index` (builtin_set.cpp:187-221).
Returns the C return value (`count`, or the literal `0` / `1` of the early returns),
the final contents of the `indexes` vector contributed by this call, and the error
messages printed.  `acc` is the portion of `indexes` pushed so far in this call (each
`parse_index` call is modelled with its own vector, and the driver concatenates).
`fuel` only makes the recursion structural: every iteration consumes at least one
character of `src`, so `parse_index` passes `src.length + 1`. -/
def parse_loop (var_count : Nat) : Nat → WStr → List Int → Nat × List Int × List ErrMsg
  | 0, _, _ => (0, [], [])
  | fuel + 1, src, acc =>
    match src with
    | ']' :: _ => (acc.length, acc, [])
    | _ =>
      match fish_wcstol src with
      | none => (0, acc, [ErrMsg.invalidIndex src])
      | some (v, end1) =>
        let l_ind := resolve_index var_count v
        match end1 with
        | '.' :: '.' :: src2 =>
          (match fish_wcstol src2 with
           | none => (1, acc, [])
           | some (v2, end2) =>
             let l_ind2 := resolve_index var_count v2
             parse_loop var_count fuel (end2.dropWhile is_space_char)
               (acc ++ range_expand l_ind l_ind2))
        | _ => parse_loop var_count fuel (end1.dropWhile is_space_char) (acc ++ [l_ind])

/-- `parse_index` (builtin_set.cpp:159-224): extract indexes from a destination
argument of the form `name[index1 index2...]`.  Returns the C return value (`0` on
error, otherwise the count the function reports), the indexes pushed, and the error
messages printed.  A zero first component is what callers treat as failure
(`if (!parse_index(...))`). -/
def parse_index (src : WStr) (name : WStr) (var_count : Nat) : Nat × List Int × List ErrMsg :=
  let namePart := src.takeWhile is_word_char
  let rest := src.dropWhile is_word_char
  match rest with
  | '[' :: afterBracket =>
    if namePart ≠ name then (0, [], [ErrMsg.multipleNames name src])
    else
      let body := afterBracket.dropWhile is_space_char
      parse_loop var_count (body.length + 1) body []
  | _ => (0, [], [ErrMsg.argCount])

/-- `list.resize(ind + 1)` followed by `list[ind] = newv` from `update_values`
(builtin_set.cpp:239-244): grow the array with empty strings (`wcstring()`) so that
zero-based slot `ind` exists, then overwrite that slot. -/
def write_at (list : List WStr) (ind : Nat) (v : WStr) : List WStr :=
  let grown := if list.length ≤ ind then list ++ List.replicate (ind + 1 - list.length) [] else list
  grown.set ind v

/-- `update_values` (builtin_set.cpp:226-248).  The source walks two parallel vectors
`indexes[i]` / `values[i]` whose equal length the caller establishes; they are embedded
as a single list of pairs.  Returns the C return value (0 ok, 1 bounds error) together
with the final state of `list`. -/
def update_values (list : List WStr) : List (Int × WStr) → Nat × List WStr
  | [] => (0, list)
  | (idx, newv) :: rest =>
    let ind := idx - 1
    if ind < 0 then (1, list)
    else update_values (write_at list ind.toNat newv) rest

/-- Ordered insertion into a strictly ascending list, mirroring insertion into the
`std::set<long> indexes_set` of `erase_values` (builtin_set.cpp:254). -/
def set_insert (v : Int) : List Int → List Int
  | [] => [v]
  | x :: xs => if v < x then v :: x :: xs else if v = x then x :: xs else x :: set_insert v xs

/-- `const std::set<long> indexes_set(indexes.begin(), indexes.end());`
(builtin_set.cpp:254): the deduplicated, ascending-sorted index list. -/
def make_index_set (idxs : List Int) : List Int := idxs.foldl (fun s v => set_insert v s) []

/-- `erase_values` (builtin_set.cpp:251-266): walk the index set backwards (largest
first) and erase the (1-based) in-range slots, ignoring the rest. -/
def erase_values (list : List WStr) (indexes : List Int) : List WStr :=
  (make_index_set indexes).reverse.foldl
    (fun l val =>
      if 0 < val ∧ val ≤ (l.length : Int) then l.eraseIdx (val.toNat - 1) else l)
    list

/-- Return code of the external `env_set` call (env.h): `ENV_OK`, `ENV_PERM`,
`ENV_SCOPE`, `ENV_INVALID`. -/
inductive EnvSetRet where
  | ok : EnvSetRet
  | perm : EnvSetRet
  | scope : EnvSetRet
  | invalid : EnvSetRet
  deriving DecidableEq, Repr

/-- Model of the external variable store as seen by one invocation (env.cpp is outside
this core).  `get key` is `env_get_string(key, scope)` followed by
`tokenize_variable_array` (`none` = missing); `exist` is `env_exist`; `defaultGet key`
is the `ENV_DEFAULT` lookup used by path validation, `none` covering
`missing_or_empty()`; `setRet` is the return code `env_set` gives this invocation. -/
structure Store where
  get : WStr → Option (List WStr)
  exist : WStr → Bool
  defaultGet : WStr → Option (List WStr)
  setRet : EnvSetRet

/-- Model of the filesystem oracles used by path validation (wutil): `wstat` success,
`S_ISDIR` on the stat result, and `waccess(dir, X_OK)` success. -/
structure FsEnv where
  statOk : WStr → Bool
  isDir : WStr → Bool
  accessOk : WStr → Bool

/-- `path_variables` / `is_path_variable` (builtin_set.cpp:43-44). -/
def is_path_variable (key : WStr) : Bool :=
  key = "PATH".toList || key = "CDPATH".toList

/-- `string_prefixes_string(L"/", dir)`: `dir` starts with the path-root marker. -/
def starts_with_slash (dir : WStr) : Bool :=
  match dir with
  | '/' :: _ => true
  | _ => false

/-- `wcschr(dir, L':')` with a nonempty remainder (builtin_set.cpp:93-103): the part
after the first colon, when nonempty, triggering the multiple-values hint. -/
def colon_suffix (dir : WStr) : Option WStr :=
  match dir.dropWhile (fun c => c ≠ ':') with
  | ':' :: c :: t => some (c :: t)
  | _ => none

/-- One iteration of the validation loop of `my_env_set` (builtin_set.cpp:69-104):
whether the entry counts towards `any_success`, and the messages it prints.  An entry
not starting with `/`, or already present in the existing (`ENV_DEFAULT`) value, is
accepted without filesystem checks; otherwise it must stat as a directory with execute
permission, else a warning (plus colon hint when applicable) is printed. -/
def path_entry_check (fs : FsEnv) (existing : List WStr) (key dir : WStr) :
    Bool × List ErrMsg :=
  if starts_with_slash dir = false ∨ dir ∈ existing then (true, [])
  else if fs.statOk dir && fs.isDir dir && fs.accessOk dir then (true, [])
  else
    (false,
      ErrMsg.pathError key dir ::
        (match colon_suffix dir with
         | some suf => [ErrMsg.pathHint key suf]
         | none => []))

/-- The tail of `my_env_set` (builtin_set.cpp:115-148): map the `env_set` return code
to a status and error message. -/
def env_set_result (store : Store) (key : WStr) (msgs : List ErrMsg) : Nat × List ErrMsg :=
  match store.setRet with
  | EnvSetRet.ok => (0, msgs)
  | EnvSetRet.perm => (1, msgs ++ [ErrMsg.permErr key])
  | EnvSetRet.scope => (1, msgs ++ [ErrMsg.scopeErr key])
  | EnvSetRet.invalid => (1, msgs ++ [ErrMsg.invalidErr key])

/-- `my_env_set` (builtin_set.cpp:48-149): validate path-like variables, then call
`env_set`.  Returns `(status, error messages)`; status 0 is `STATUS_CMD_OK`. -/
def my_env_set (fs : FsEnv) (store : Store) (key : WStr) (list : List WStr) :
    Nat × List ErrMsg :=
  if is_path_variable key then
    let existing := (store.defaultGet key).getD []
    let scan := list.foldl
      (fun (acc : Bool × List ErrMsg) dir =>
        let r := path_entry_check fs existing key dir
        (acc.1 || r.1, acc.2 ++ r.2))
      (false, [])
    if list.isEmpty = false ∧ scan.1 = false then (1, scan.2)
    else env_set_result store key scan.2
  else env_set_result store key []

/-- The index-token consumption loop of `builtin_set`'s slice branch
(builtin_set.cpp:628-652): walk the remaining arguments calling `parse_index` on each,
accumulating `indexes`.  In assignment mode, fewer remaining values than indexes is an
argument-count error, and when the counts match the walk stops and the remaining
arguments become the values.  On a `parse_index` failure the driver also prints the
help text to the error stream. -/
def slice_parse_loop (erase : Bool) (dest : WStr) (var_count : Nat) :
    List WStr → List Int → Option (List Int × List WStr) × List ErrMsg
  | [], acc => (some (acc, []), [])
  | arg :: rest, acc =>
    let p := parse_index arg dest var_count
    if p.1 = 0 then (none, p.2.2 ++ [ErrMsg.helpText])
    else
      let acc2 := acc ++ p.2.1
      if erase then
        let r := slice_parse_loop erase dest var_count rest acc2
        (r.1, p.2.2 ++ r.2)
      else
        let idx_count := acc2.length
        let val_count := rest.length
        if val_count < idx_count then (none, p.2.2 ++ [ErrMsg.argCount, ErrMsg.helpText])
        else if val_count = idx_count then (some (acc2, rest), p.2.2)
        else
          let r := slice_parse_loop erase dest var_count rest acc2
          (r.1, p.2.2 ++ r.2)

/-- `if (retcode == STATUS_CMD_OK && preserve_failure_exit_status) retcode =
incoming_exit_status;` (builtin_set.cpp:705). -/
def final_status (preserve : Bool) (incoming retcode : Nat) : Nat :=
  if retcode = 0 ∧ preserve = true then incoming else retcode

/-- Observable outcome of one slice-mode invocation: exit status, error-stream
messages, and the array passed to the store write (`none` when no write happens). -/
structure SetOutcome where
  status : Nat
  errs : List ErrMsg
  written : Option (List WStr)
  deriving DecidableEq, Repr

/-- The slice branch of `builtin_set` (builtin_set.cpp:616-674) plus the final status
adjustment (builtin_set.cpp:705).  `destArg` is `argv[w.woptind]`, the token containing
`[`; `rest` holds the following arguments.  In this branch
`preserve_failure_exit_status` is true exactly when `--erase` was not given, and the
source discards the return values of `my_env_set` and (for the status) of
`update_values` -- a failing `update_values` only prints the bounds message.  The
universal-shadowing warning (builtin_set.cpp:694-701) fires only under the `-U` flag
and is outside this embedding, which models an invocation without scope flags. -/
def set_slice_mode (fs : FsEnv) (store : Store) (erase : Bool) (incoming : Nat)
    (destArg : WStr) (rest : List WStr) : SetOutcome :=
  let dest := destArg.takeWhile (fun c => c ≠ '[')
  let preserve := !erase
  let fetched := store.get dest
  let result := fetched.getD []
  if fetched.isNone ∧ erase = true then
    { status := final_status preserve incoming 1, errs := [], written := none }
  else
    match slice_parse_loop erase dest result.length (destArg :: rest) [] with
    | (none, msgs) =>
      { status := final_status preserve incoming 1, errs := msgs, written := none }
    | (some (idxs, values), msgs) =>
      if erase then
        let newlist := erase_values result idxs
        let r := my_env_set fs store dest newlist
        { status := final_status preserve incoming 0, errs := msgs ++ r.2,
          written := some newlist }
      else
        let u := update_values result (idxs.zip values)
        let bmsgs := if u.1 ≠ 0 then [ErrMsg.boundsErr] else []
        let r := my_env_set fs store dest u.2
        { status := final_status preserve incoming 0, errs := msgs ++ bmsgs ++ r.2,
          written := some u.2 }

/-- The query branch of `builtin_set` (builtin_set.cpp:535-579).  `ret` is the running
`retcode`; for a sliced target the indexes are parsed against the fetched array and the
out-of-range ones counted, a parse failure setting the code to 1 and breaking out; for
a bare name `env_exist` decides. -/
def query_mode (store : Store) : List WStr → Nat → Nat
  | [], ret => ret
  | arg :: restArgs, ret =>
    if '[' ∈ arg then
      let dest := arg.takeWhile (fun c => c ≠ '[')
      let result := (store.get dest).getD []
      let p := parse_index arg dest result.length
      if p.1 = 0 then 1
      else
        query_mode store restArgs
          (ret + p.2.1.countP (fun idx => decide (idx < 1 ∨ (result.length : Int) < idx)))
    else
      query_mode store restArgs (ret + if store.exist arg then 0 else 1)

/-- `ellipsis_char` from common.h, modelled as the horizontal-ellipsis character. -/
def ellipsis_char : Char := '…'

/-- The loop body of `print_variables` (builtin_set.cpp:275-303): the output printed
for variable `key`.  `escK` models `escape_string(key, 0)`, `escV` models
`expand_escape_variable`, `rawOf` models `env_get_string(key, scope)` (`none` =
missing); `value.resize(60)` on a longer string is `List.take 60`. -/
def print_one_var (include_values esc shorten_ok : Bool) (escK escV : WStr → WStr)
    (rawOf : WStr → Option WStr) (key : WStr) : WStr :=
  let e_key := escK key
  let line :=
    if include_values then
      match rawOf key with
      | some value0 =>
        let shorten := shorten_ok && decide (64 < value0.length)
        let value := if shorten then value0.take 60 else value0
        let e_value := if esc then escV value else value
        e_key ++ [' '] ++ e_value ++ (if shorten then [ellipsis_char] else [])
      | none => e_key
    else e_key
  line ++ ['\n']

/-- Lexicographic comparison of wide strings, the order used by
`sort(names.begin(), names.end())`. -/
def wstr_lt : WStr → WStr → Bool
  | [], [] => false
  | [], _ :: _ => true
  | _ :: _, [] => false
  | a :: as, b :: bs => if a < b then true else if b < a then false else wstr_lt as bs

/-- Insertion step of the model of `sort(names.begin(), names.end())`. -/
def insert_sorted (x : WStr) : List WStr → List WStr
  | [] => [x]
  | y :: ys => if wstr_lt x y then x :: y :: ys else y :: insert_sorted x ys

/-- `sort(names.begin(), names.end())` (builtin_set.cpp:273) as insertion sort. -/
def sort_names (l : List WStr) : List WStr := l.foldr insert_sorted []

/-- `print_variables` (builtin_set.cpp:270-304): print each name in sorted order, with
values and shortening as requested. -/
def print_variables (include_values esc shorten_ok : Bool) (names : List WStr)
    (rawOf : WStr → Option WStr) (escK escV : WStr → WStr) : WStr :=
  (sort_names names).foldl
    (fun acc key => acc ++ print_one_var include_values esc shorten_ok escK escV rawOf key)
    []

/-- Spec-side helper for C2: keep the elements of `l` whose 1-based position (counting
from `pos`) does not occur in `S`. -/
def keepAux (S : List Int) : Nat → List WStr → List WStr
  | _, [] => []
  | pos, a :: t =>
    if (pos : Int) ∈ S then keepAux S (pos + 1) t else a :: keepAux S (pos + 1) t

/-- Spec-side helper for C2: how many of the positions `pos, pos+1, ..., pos+n-1`
occur in `S` -- with `pos = 1` and `n` the array length, the number of distinct
in-range indices of `S`. -/
def posCountFrom (S : List Int) : Nat → Nat → Nat
  | _, 0 => 0
  | pos, n + 1 => (if (pos : Int) ∈ S then 1 else 0) + posCountFrom S (pos + 1) n

/-- Spec-side helper for C7: the largest 1-based index among the pairs (0 when there
are none). -/
def maxIndex : List (Int × WStr) → Nat
  | [] => 0
  | p :: rest => max p.1.toNat (maxIndex rest)

/-- Spec-side helper for C7: the value the last pair in list order assigns to
zero-based slot `pos`, if any (later pairs win). -/
def lastVal : List (Int × WStr) → Nat → Option WStr
  | [], _ => none
  | p :: rest, pos =>
    match lastVal rest pos with
    | some w => some w
    | none => if p.1 = (pos : Int) + 1 then some p.2 else none

/-- Spec-side helper for C8, following the claim's words: the number of requested
things that do not exist for one target -- for a bare name, 1 if the variable is
absent; for a sliced name, the number of parsed indices below 1 or above the target
array's current length. -/
def missCountSpec (store : Store) (arg : WStr) : Nat :=
  if '[' ∈ arg then
    let dest := arg.takeWhile (fun c => c ≠ '[')
    let len := ((store.get dest).getD []).length
    (parse_index arg dest len).2.1.countP (fun idx => decide (idx < 1 ∨ (len : Int) < idx))
  else if store.exist arg then 0 else 1

/-- A store where variable `a` holds `[x, y]` and `env_set` succeeds, for concrete
evaluations. -/
def store_axy : Store where
  get := fun k => if k = "a".toList then some ["x".toList, "y".toList] else none
  exist := fun k => k = "a".toList
  defaultGet := fun _ => none
  setRet := EnvSetRet.ok

/-- A store with no variables at all; `env_set` succeeds. -/
def store_empty : Store where
  get := fun _ => none
  exist := fun _ => false
  defaultGet := fun _ => none
  setRet := EnvSetRet.ok

/-- A filesystem oracle on which every stat fails. -/
def fs_none : FsEnv where
  statOk := fun _ => false
  isDir := fun _ => false
  accessOk := fun _ => false

/-- Recognizer for the per-entry path warning message (`BUILTIN_SET_PATH_ERROR`). -/
def isPathErrorMsg : ErrMsg → Bool
  | ErrMsg.pathError _ _ => true
  | _ => false

/-- A store whose `PATH` has existing (default-scope) value `[/usr]`. -/
def store_path : Store where
  get := fun _ => none
  exist := fun _ => false
  defaultGet := fun k => if k = "PATH".toList then some ["/usr".toList] else none
  setRet := EnvSetRet.ok

/-- A store where `foo` holds a one-element array `[x]`. -/
def store_foo1 : Store where
  get := fun k => if k = "foo".toList then some ["x".toList] else none
  exist := fun k => k = "foo".toList
  defaultGet := fun _ => none
  setRet := EnvSetRet.ok

/-- A raw-value lookup where variable `K` holds a 65-character value. -/
def rawOf_long : WStr → Option WStr :=
  fun k => if k = "K".toList then some (List.replicate 65 'a') else none

example : fish_wcstol "-1]".toList = some (-1, "]".toList) := by decide

example : fish_wcstol "x]".toList = none := by decide

example : fish_wcstol " 23 4".toList = some (23, " 4".toList) := by decide

example : range_expand 1 3 = [1, 2, 3] := by decide

example : range_expand 3 1 = [3, 2, 1] := by decide

example : range_expand 2 2 = [2] := by decide

example : parse_index "a[1 2]".toList "a".toList 5 = (2, [1, 2], []) := by decide

example : parse_index "a[-1]".toList "a".toList 5 = (1, [5], []) := by decide

example : parse_index "a[1..3]".toList "a".toList 5 = (3, [1, 2, 3], []) := by decide

example : parse_index "a[1..x]".toList "a".toList 5 = (1, [], []) := by decide

example : parse_index "a[]".toList "a".toList 5 = (0, [], []) := by decide

example : parse_index "b[1]".toList "a".toList 5
    = (0, [], [ErrMsg.multipleNames "a".toList "b[1]".toList]) := by decide

example : parse_index "a".toList "a".toList 5 = (0, [], [ErrMsg.argCount]) := by decide

example : parse_index "a[1 y]".toList "a".toList 5
    = (0, [1], [ErrMsg.invalidIndex "y]".toList]) := by decide

example : erase_values ["a".toList, "b".toList, "c".toList] [2, 2, 9, 0, -1]
    = ["a".toList, "c".toList] := by decide

example : erase_values ["a".toList, "b".toList, "c".toList] [3, 1] = ["b".toList] := by decide

theorem range_loop_one (b : Int) : ∀ (k : Nat) (j : Int), b - j = (k : Int) →
    range_loop 1 b (k + 1) j = (List.range (k + 1)).map (fun i : Nat => j + (i : Int)) := by
  intro k
  induction k with
  | zero =>
    intro j hj
    have hjb : j = b := by omega
    subst hjb
    have h1 : List.range 1 = [0] := by decide
    simp [range_loop, h1]
  | succ k ih =>
    intro j hj
    have hcond : j * 1 ≤ b * 1 := by omega
    rw [range_loop, if_pos hcond, ih (j + 1) (by omega)]
    nth_rewrite 2 [List.range_succ_eq_map]
    simp only [List.map_cons, List.map_map, Nat.cast_zero, add_zero]
    refine congrArg (j :: ·) (List.map_congr_left ?_)
    intro i _
    simp only [Function.comp_apply, Nat.succ_eq_add_one, Nat.cast_add, Nat.cast_one]
    omega

theorem range_loop_neg (b : Int) : ∀ (k : Nat) (j : Int), j - b = (k : Int) →
    range_loop (-1) b (k + 1) j = (List.range (k + 1)).map (fun i : Nat => j - (i : Int)) := by
  intro k
  induction k with
  | zero =>
    intro j hj
    have hjb : j = b := by omega
    subst hjb
    have h1 : List.range 1 = [0] := by decide
    simp [range_loop, h1]
  | succ k ih =>
    intro j hj
    have hcond : j * (-1) ≤ b * (-1) := by omega
    rw [range_loop, if_pos hcond, ih (j + -1) (by omega)]
    nth_rewrite 2 [List.range_succ_eq_map]
    simp only [List.map_cons, List.map_map, Nat.cast_zero, sub_zero]
    refine congrArg (j :: ·) (List.map_congr_left ?_)
    intro i _
    simp only [Function.comp_apply, Nat.succ_eq_add_one, Nat.cast_add, Nat.cast_one]
    omega

/-- C4: a range `A..B` of sign-resolved endpoints expands to the inclusive sequence
from A to B: ascending with step 1 when A ≤ B, descending with step -1 when B < A;
`1..3` yields `[1,2,3]` and `3..1` yields `[3,2,1]` (the expansion is appended to the
index list by `parse_index`). -/
theorem c4_range_expansion (a b : Int) :
    (a ≤ b →
      range_expand a b = (List.range (b + 1 - a).toNat).map (fun i : Nat => a + (i : Int))) ∧
    (b < a →
      range_expand a b = (List.range (a + 1 - b).toNat).map (fun i : Nat => a - (i : Int))) ∧
    (parse_index "x[1..3]".toList "x".toList 3).2.1 = [1, 2, 3] ∧
    (parse_index "x[3..1]".toList "x".toList 3).2.1 = [3, 2, 1] := by
  refine ⟨?_, ?_, by decide, by decide⟩
  · intro hab
    have hd : ¬ b < a := by omega
    simp only [range_expand, if_neg hd]
    have h1 : (b * 1 - a * 1).toNat = (b - a).toNat := by omega
    rw [h1, range_loop_one b (b - a).toNat a (by omega)]
    have h2 : (b + 1 - a).toNat = (b - a).toNat + 1 := by omega
    rw [h2]
  · intro hba
    simp only [range_expand, if_pos hba]
    have h1 : (b * (-1) - a * (-1)).toNat = (a - b).toNat := by omega
    rw [h1, range_loop_neg b (a - b).toNat a (by omega)]
    have h2 : (a + 1 - b).toNat = (a - b).toNat + 1 := by omega
    rw [h2]

theorem c4_range_expansion_witness :
    (1 : Int) ≤ 3 ∧
      range_expand 1 3
        = (List.range ((3 : Int) + 1 - 1).toNat).map (fun i : Nat => (1 : Int) + (i : Int)) :=
  ⟨by decide, (c4_range_expansion 1 3).1 (by decide)⟩

/-- C3: a negative index v is resolved to `var_count + v + 1` (so for length 5, `-1`
resolves to 5 and `-5` to 1), and in a range each endpoint is resolved independently
before the range is expanded (`a[-3..-1]` on length 5 gives `[3,4,5]`). -/
theorem c3_negative_resolution (n : Nat) (v : Int) (hv : v < 0) :
    resolve_index n v = (n : Int) + v + 1 ∧
    (parse_index "a[-1]".toList "a".toList 5).2.1 = [5] ∧
    (parse_index "a[-5]".toList "a".toList 5).2.1 = [1] ∧
    (parse_index "a[-3..-1]".toList "a".toList 5).2.1 = [3, 4, 5] ∧
    (parse_index "a[-1..-3]".toList "a".toList 5).2.1 = [5, 4, 3] := by
  refine ⟨?_, by decide, by decide, by decide, by decide⟩
  rw [resolve_index, if_pos hv]

theorem c3_negative_resolution_witness :
    (-1 : Int) < 0 ∧ resolve_index 5 (-1) = (5 : Int) + (-1) + 1 :=
  ⟨by decide, (c3_negative_resolution 5 (-1) (by decide)).1⟩

/-- C5 counterexample: on `a[1..x]` (malformed range upper bound) the parser returns
count 1 (success to its callers) but the already-parsed lower index 1 is NOT in the
returned index list -- the list is empty, so its last element is not 1 as the claim
states. -/
theorem c5_counterexample :
    (parse_index "a[1..x]".toList "a".toList 5).1 = 1 ∧
    ((parse_index "a[1..x]".toList "a".toList 5).2.1).getLast? ≠ some 1 := by decide

/-- C5 amended: when the text after `..` is not a valid integer, the parser does not
fail -- it stops and returns the literal count 1 (truthy, so callers treat it as
success) -- but the already-parsed lower index is discarded: the index list is left
exactly as accumulated before the range expression, gaining no element. -/
theorem c5_amended (var_count fuel : Nat) (src : WStr) (acc : List Int)
    (v : Int) (end1 src2 : WStr)
    (hne : src.head? ≠ some ']')
    (hlo : fish_wcstol src = some (v, end1))
    (hdots : end1 = '.' :: '.' :: src2)
    (hbad : fish_wcstol src2 = none) :
    parse_loop var_count (fuel + 1) src acc = (1, acc, []) := by
  subst hdots
  rw [parse_loop]
  split
  next heq =>
    rw [heq] at hlo
    simp at hlo
  next v2 end2 heq =>
    rw [hlo] at heq
    injection heq with h
    injection h with h1 h2
    subst h1
    subst h2
    simp only [hbad]
  next =>
    intro tail h
    exact hne (by rw [h]; rfl)

theorem c5_amended_witness :
    ("1..x]".toList.head? ≠ some ']') ∧ parse_loop 5 6 "1..x]".toList [] = (1, [], []) :=
  ⟨by decide, c5_amended 5 5 "1..x]".toList [] 1 "..x]".toList "x]".toList
    (by decide) (by decide) rfl (by decide)⟩

theorem write_at_length (l : List WStr) (k : Nat) (v : WStr) :
    (write_at l k v).length = max l.length (k + 1) := by
  simp only [write_at]
  split
  next h =>
    simp only [List.length_set, List.length_append, List.length_replicate]
    omega
  next h =>
    simp only [List.length_set]
    omega

theorem write_at_getD (l : List WStr) (k : Nat) (v : WStr) (pos : Nat) :
    (write_at l k v).getD pos [] = if pos = k then v else l.getD pos [] := by
  simp only [write_at]
  by_cases hpk : pos = k
  · subst hpk
    rw [if_pos rfl]
    split
    next h =>
      have hlen : pos < (l ++ List.replicate (pos + 1 - l.length) ([] : WStr)).length := by
        simp only [List.length_append, List.length_replicate]
        omega
      simp [List.getD_eq_getElem?_getD, List.getElem?_set_self hlen]
    next h =>
      have hlen : pos < l.length := by omega
      simp [List.getD_eq_getElem?_getD, List.getElem?_set_self hlen]
  · rw [if_neg hpk]
    split
    next h =>
      rw [List.getD_eq_getElem?_getD, List.getElem?_set_ne (Ne.symm hpk)]
      by_cases hp : pos < l.length
      · rw [List.getElem?_append_left hp, List.getD_eq_getElem?_getD]
      · rw [List.getElem?_append_right (by omega), List.getElem?_replicate,
          List.getD_eq_getElem?_getD, List.getElem?_eq_none (by omega)]
        split <;> rfl
    next h =>
      rw [List.getD_eq_getElem?_getD, List.getElem?_set_ne (Ne.symm hpk),
        List.getD_eq_getElem?_getD]

theorem update_values_all_pos :
    ∀ (pairs : List (Int × WStr)) (l : List WStr), (∀ p ∈ pairs, 1 ≤ p.1) →
      (update_values l pairs).1 = 0 ∧
      (update_values l pairs).2.length = max l.length (maxIndex pairs) ∧
      ∀ pos : Nat, (update_values l pairs).2.getD pos []
        = (lastVal pairs pos).getD (l.getD pos []) := by
  intro pairs
  induction pairs with
  | nil =>
    intro l _
    refine ⟨rfl, by simp [update_values, maxIndex], ?_⟩
    intro pos
    simp [update_values, lastVal]
  | cons p rest ih =>
    intro l hpos
    obtain ⟨i, v⟩ := p
    have hi : 1 ≤ i := hpos (i, v) (by simp)
    have hrest : ∀ q ∈ rest, 1 ≤ q.1 := fun q hq => hpos q (by simp [hq])
    have hneg : ¬ (i - 1 < 0) := by omega
    have hstep : update_values l ((i, v) :: rest)
        = update_values (write_at l (i - 1).toNat v) rest := by
      simp [update_values, hneg]
    obtain ⟨ih1, ih2, ih3⟩ := ih (write_at l (i - 1).toNat v) hrest
    rw [hstep]
    refine ⟨ih1, ?_, ?_⟩
    · rw [ih2, write_at_length]
      have h1 : (i - 1).toNat + 1 = i.toNat := by omega
      rw [h1]
      simp only [maxIndex]
      exact Nat.max_assoc l.length i.toNat (maxIndex rest)
    · intro pos
      rw [ih3 pos, write_at_getD]
      cases hlv : lastVal rest pos with
      | some w => simp [lastVal, hlv]
      | none =>
        simp only [lastVal, hlv]
        by_cases hip : i = (pos : Int) + 1
        · have hp : pos = (i - 1).toNat := by omega
          rw [if_pos hp, if_pos hip]
          rfl
        · have hp : pos ≠ (i - 1).toNat := by omega
          rw [if_neg hp, if_neg hip]

/-- C1 counterexample: updating `a = [x, y]` at indices `[2, 0]` with values `[a, b]`
hits the bounds error at the second pair, but the first pair has already been written
(the list becomes `[x, a]`, not the original `[x, y]`), and the driver still passes the
partially updated array to the store write (`set a[2 0] v w` writes `[x, v]`). -/
theorem c1_counterexample :
    (update_values ["x".toList, "y".toList]
        [((2 : Int), "a".toList), ((0 : Int), "b".toList)]).1 = 1 ∧
    (update_values ["x".toList, "y".toList]
        [((2 : Int), "a".toList), ((0 : Int), "b".toList)]).2
      ≠ ["x".toList, "y".toList] ∧
    (set_slice_mode fs_none store_axy false 0 "a[2 0]".toList
        ["v".toList, "w".toList]).written = some ["x".toList, "v".toList] := by decide

theorem update_values_stops :
    ∀ (good : List (Int × WStr)) (l : List WStr) (b : Int × WStr) (rest : List (Int × WStr)),
      (∀ p ∈ good, 1 ≤ p.1) → b.1 ≤ 0 →
      update_values l (good ++ b :: rest) = (1, (update_values l good).2) := by
  intro good
  induction good with
  | nil =>
    intro l b rest _ hb
    obtain ⟨bi, bv⟩ := b
    simp only at hb
    simp [update_values, show bi - 1 < 0 by omega]
  | cons p good' ih =>
    intro l b rest hpos hb
    obtain ⟨i, v⟩ := p
    have hi : 1 ≤ i := hpos (i, v) (by simp)
    have hneg : ¬ (i - 1 < 0) := by omega
    have h1 : update_values l (((i, v) :: good') ++ b :: rest)
        = update_values (write_at l (i - 1).toNat v) (good' ++ b :: rest) := by
      simp [update_values, hneg]
    have h2 : (update_values l ((i, v) :: good')).2
        = (update_values (write_at l (i - 1).toNat v) good').2 := by
      simp [update_values, hneg]
    rw [h1, h2]
    exact ih (write_at l (i - 1).toNat v) b rest (fun q hq => hpos q (by simp [hq])) hb

/-- C1 amended: when a pair's 1-based index resolves to a zero-based index below 0,
`update_values` stops at that pair and reports the bounds error (return 1), but the
pairs earlier in the index list have already been written -- the resulting array is
the one obtained by committing exactly the earlier pairs (and the driver still writes
it to the store; only a message distinguishes the failure). -/
theorem c1_amended (l : List WStr) (good : List (Int × WStr)) (b : Int × WStr)
    (rest : List (Int × WStr)) (hgood : ∀ p ∈ good, 1 ≤ p.1) (hbad : b.1 ≤ 0) :
    (update_values l (good ++ b :: rest)).1 = 1 ∧
    (update_values l (good ++ b :: rest)).2 = (update_values l good).2 ∧
    (update_values l good).1 = 0 := by
  have h := update_values_stops good l b rest hgood hbad
  exact ⟨by rw [h], by rw [h], (update_values_all_pos good l hgood).1⟩

theorem c1_amended_witness :
    ((∀ p ∈ [((2 : Int), "a".toList)], 1 ≤ p.1) ∧ (((0 : Int), "b".toList)).1 ≤ 0) ∧
    (update_values ["x".toList, "y".toList]
        ([((2 : Int), "a".toList)] ++ ((0 : Int), "b".toList) :: [])).1 = 1 :=
  ⟨⟨by decide, by decide⟩,
    (c1_amended ["x".toList, "y".toList] [((2 : Int), "a".toList)] ((0 : Int), "b".toList)
      [] (by decide) (by decide)).1⟩

/-- C7: for a slice update whose resolved indices are all positive, the update
succeeds, the final length is `max old_length largest_index`, and every slot holds the
value of the last pair in list order targeting it, the old element, or the empty
string when newly created and untargeted; `name[2] x` on an empty array gives
`["", "x"]`, and with two pairs targeting the same index the later one wins. -/
theorem c7_growth_and_fill (l : List WStr) (pairs : List (Int × WStr))
    (hpos : ∀ p ∈ pairs, 1 ≤ p.1) :
    (update_values l pairs).1 = 0 ∧
    (update_values l pairs).2.length = max l.length (maxIndex pairs) ∧
    (∀ pos : Nat, (update_values l pairs).2.getD pos []
      = (lastVal pairs pos).getD (l.getD pos [])) ∧
    update_values [] [((2 : Int), "x".toList)] = (0, [[], "x".toList]) ∧
    (update_values [] [((1 : Int), "a".toList), ((1 : Int), "b".toList)]).2
      = ["b".toList] := by
  obtain ⟨h1, h2, h3⟩ := update_values_all_pos pairs l hpos
  exact ⟨h1, h2, h3, by decide, by decide⟩

theorem c7_growth_and_fill_witness :
    (∀ p ∈ [((2 : Int), "x".toList)], 1 ≤ p.1) ∧
    (update_values ([] : List WStr) [((2 : Int), "x".toList)]).2.length
      = max ([] : List WStr).length (maxIndex [((2 : Int), "x".toList)]) :=
  ⟨by decide, (c7_growth_and_fill [] [((2 : Int), "x".toList)] (by decide)).2.1⟩

theorem set_insert_mem (v : Int) : ∀ (s : List Int) (x : Int),
    x ∈ set_insert v s ↔ x = v ∨ x ∈ s := by
  intro s
  induction s with
  | nil => intro x; simp [set_insert]
  | cons y ys ih =>
    intro x
    simp only [set_insert]
    split
    · simp only [List.mem_cons]
    · split
      next hlt heq =>
        subst heq
        simp only [List.mem_cons]
        tauto
      next hlt hne =>
        simp only [List.mem_cons, ih]
        tauto

theorem set_insert_sorted (v : Int) : ∀ (s : List Int),
    List.Pairwise (fun a b => a < b) s →
    List.Pairwise (fun a b => a < b) (set_insert v s) := by
  intro s
  induction s with
  | nil => intro _; simp [set_insert]
  | cons y ys ih =>
    intro hp
    obtain ⟨hy, hys⟩ := List.pairwise_cons.mp hp
    simp only [set_insert]
    split
    next hlt =>
      refine List.pairwise_cons.mpr ⟨?_, hp⟩
      intro z hz
      rcases List.mem_cons.mp hz with hz | hz
      · omega
      · have := hy z hz
        omega
    · split
      next hlt heq => exact hp
      next hlt hne =>
        refine List.pairwise_cons.mpr ⟨?_, ih hys⟩
        intro z hz
        rcases (set_insert_mem v ys z).mp hz with hz | hz
        · omega
        · exact hy z hz

theorem foldl_set_insert_mem : ∀ (idxs s : List Int) (x : Int),
    x ∈ idxs.foldl (fun s v => set_insert v s) s ↔ x ∈ idxs ∨ x ∈ s := by
  intro idxs
  induction idxs with
  | nil => intro s x; simp
  | cons v rest ih =>
    intro s x
    rw [List.foldl_cons, ih, set_insert_mem]
    simp only [List.mem_cons]
    tauto

theorem foldl_set_insert_sorted : ∀ (idxs s : List Int),
    List.Pairwise (fun a b => a < b) s →
    List.Pairwise (fun a b => a < b) (idxs.foldl (fun s v => set_insert v s) s) := by
  intro idxs
  induction idxs with
  | nil => intro s h; exact h
  | cons v rest ih =>
    intro s h
    rw [List.foldl_cons]
    exact ih _ (set_insert_sorted v s h)

theorem make_index_set_mem (idxs : List Int) (x : Int) :
    x ∈ make_index_set idxs ↔ x ∈ idxs := by
  rw [make_index_set, foldl_set_insert_mem]
  simp

theorem make_index_set_sorted (idxs : List Int) :
    List.Pairwise (fun a b => a < b) (make_index_set idxs) :=
  foldl_set_insert_sorted idxs [] (List.Pairwise.nil)

theorem keepAux_nil_set : ∀ (l : List WStr) (pos : Nat), keepAux [] pos l = l := by
  intro l
  induction l with
  | nil => intro pos; rfl
  | cons a t ih =>
    intro pos
    simp [keepAux, ih]

theorem keepAux_congr : ∀ (l : List WStr) (pos : Nat) (S1 S2 : List Int),
    (∀ v : Int, v ∈ S1 ↔ v ∈ S2) → keepAux S1 pos l = keepAux S2 pos l := by
  intro l
  induction l with
  | nil => intro pos S1 S2 _; rfl
  | cons a t ih =>
    intro pos S1 S2 h
    simp only [keepAux]
    by_cases hm : (pos : Int) ∈ S1
    · rw [if_pos hm, if_pos ((h _).mp hm), ih _ _ _ h]
    · rw [if_neg hm, if_neg (fun hc => hm ((h _).mpr hc)), ih _ _ _ h]

theorem keepAux_all_kept : ∀ (l : List WStr) (pos : Nat) (S : List Int),
    (∀ j, j < l.length → ((pos + j : Nat) : Int) ∉ S) → keepAux S pos l = l := by
  intro l
  induction l with
  | nil => intro pos S _; rfl
  | cons a t ih =>
    intro pos S h
    have h0 : ((pos : Nat) : Int) ∉ S := by
      have := h 0 (by simp)
      simpa using this
    rw [keepAux, if_neg h0]
    congr 1
    apply ih
    intro j hj
    rw [show pos + 1 + j = pos + (j + 1) by omega]
    exact h (j + 1) (by simp only [List.length_cons]; omega)

theorem keepAux_drop_head : ∀ (l : List WStr) (pos : Nat) (d : Int) (S : List Int),
    (∀ j, j < l.length → ((pos + j : Nat) : Int) ≠ d) →
    keepAux (d :: S) pos l = keepAux S pos l := by
  intro l
  induction l with
  | nil => intro pos d S _; rfl
  | cons a t ih =>
    intro pos d S h
    have h0 : ((pos : Nat) : Int) ≠ d := by
      have := h 0 (by simp)
      simpa using this
    have hrec : keepAux (d :: S) (pos + 1) t = keepAux S (pos + 1) t := by
      apply ih
      intro j hj
      rw [show pos + 1 + j = pos + (j + 1) by omega]
      exact h (j + 1) (by simp only [List.length_cons]; omega)
    simp only [keepAux, hrec]
    by_cases hm : (pos : Int) ∈ S
    · rw [if_pos (List.mem_cons.mpr (Or.inr hm)), if_pos hm]
    · rw [if_neg ?_, if_neg hm]
      intro hc
      rcases List.mem_cons.mp hc with hc | hc
      · exact h0 hc
      · exact hm hc

theorem keepAux_eraseIdx (d : Int) (S : List Int) (hS : ∀ r ∈ S, r < d) :
    ∀ (l : List WStr) (pos k : Nat), k < l.length → ((pos + k : Nat) : Int) = d →
    keepAux S pos (l.eraseIdx k) = keepAux (d :: S) pos l := by
  intro l
  induction l with
  | nil =>
    intro pos k hk _
    simp at hk
  | cons a t ih =>
    intro pos k hk hd
    cases k with
    | zero =>
      have hpos : ((pos : Nat) : Int) = d := by simpa using hd
      have hmem : (pos : Int) ∈ d :: S := List.mem_cons.mpr (Or.inl hpos)
      show keepAux S pos t = keepAux (d :: S) pos (a :: t)
      rw [keepAux, if_pos hmem]
      rw [keepAux_all_kept t pos S ?_, keepAux_all_kept t (pos + 1) (d :: S) ?_]
      · intro j _ hc
        rcases List.mem_cons.mp hc with hc | hc
        · omega
        · have := hS _ hc
          omega
      · intro j _ hc
        have := hS _ hc
        omega
    | succ j =>
      have hd' : ((pos + 1 + j : Nat) : Int) = d := by
        rw [show pos + 1 + j = pos + (j + 1) by omega]
        exact hd
      have hk' : j < t.length := by
        simp only [List.length_cons] at hk
        omega
      have hpd : ((pos : Nat) : Int) ≠ d := by omega
      show keepAux S pos (a :: t.eraseIdx j) = keepAux (d :: S) pos (a :: t)
      simp only [keepAux]
      rw [ih (pos + 1) j hk' hd']
      by_cases hm : (pos : Int) ∈ S
      · rw [if_pos hm, if_pos (List.mem_cons.mpr (Or.inr hm))]
      · rw [if_neg hm, if_neg ?_]
        intro hc
        rcases List.mem_cons.mp hc with hc | hc
        · exact hpd hc
        · exact hm hc

theorem erase_fold_keep : ∀ (ds : List Int), List.Pairwise (fun a b => b < a) ds →
    ∀ l : List WStr,
    ds.foldl
      (fun l val =>
        if 0 < val ∧ val ≤ (l.length : Int) then l.eraseIdx (val.toNat - 1) else l) l
      = keepAux ds 1 l := by
  intro ds
  induction ds with
  | nil =>
    intro _ l
    rw [List.foldl_nil, keepAux_nil_set]
  | cons d rest ih =>
    intro hp l
    obtain ⟨hd, hrest⟩ := List.pairwise_cons.mp hp
    simp only [List.foldl_cons]
    by_cases hc : 0 < d ∧ d ≤ (l.length : Int)
    · rw [if_pos hc, ih hrest]
      exact keepAux_eraseIdx d rest hd l 1 (d.toNat - 1) (by omega) (by omega)
    · rw [if_neg hc, ih hrest]
      have hd2 : d ≤ 0 ∨ (l.length : Int) < d := by
        by_contra hcon
        push_neg at hcon
        exact hc ⟨by omega, by omega⟩
      refine (keepAux_drop_head l 1 d rest ?_).symm
      intro j hj
      rcases hd2 with h | h <;> omega

theorem erase_values_keep (l : List WStr) (idxs : List Int) :
    erase_values l idxs = keepAux idxs 1 l := by
  rw [erase_values]
  rw [erase_fold_keep ((make_index_set idxs).reverse)
    (List.pairwise_reverse.mpr (make_index_set_sorted idxs)) l]
  apply keepAux_congr
  intro v
  rw [List.mem_reverse, make_index_set_mem]

theorem posCountFrom_le : ∀ (n : Nat) (S : List Int) (pos : Nat),
    posCountFrom S pos n ≤ n := by
  intro n
  induction n with
  | zero => intro S pos; simp [posCountFrom]
  | succ n ih =>
    intro S pos
    rw [posCountFrom]
    have := ih S (pos + 1)
    split <;> omega

theorem keepAux_length : ∀ (l : List WStr) (pos : Nat) (S : List Int),
    (keepAux S pos l).length = l.length - posCountFrom S pos l.length := by
  intro l
  induction l with
  | nil => intro pos S; rfl
  | cons a t ih =>
    intro pos S
    have hle := posCountFrom_le t.length S (pos + 1)
    simp only [keepAux, List.length_cons, posCountFrom]
    by_cases hm : (pos : Int) ∈ S
    · rw [if_pos hm, if_pos hm, ih]
      omega
    · rw [if_neg hm, if_neg hm]
      simp only [List.length_cons, ih]
      omega

theorem keepAux_sublist : ∀ (l : List WStr) (pos : Nat) (S : List Int),
    List.Sublist (keepAux S pos l) l := by
  intro l
  induction l with
  | nil => intro pos S; exact List.Sublist.refl []
  | cons a t ih =>
    intro pos S
    rw [keepAux]
    split
    · exact List.Sublist.cons a (ih (pos + 1) S)
    · exact List.Sublist.cons₂ a (ih (pos + 1) S)

/-- C2: slice erase removes exactly the elements whose 1-based position occurs in the
index list (so out-of-range and duplicate indices are silently ignored): the result
keeps, in order, the elements at positions not in the list; its length is the old
length minus the number of positions `1..n` occurring in the list (the distinct
in-range indices); and it is a sublist of the original (surviving elements keep their
relative order). -/
theorem c2_erase_characterization (l : List WStr) (idxs : List Int) :
    erase_values l idxs = keepAux idxs 1 l ∧
    (erase_values l idxs).length = l.length - posCountFrom idxs 1 l.length ∧
    List.Sublist (erase_values l idxs) l := by
  have h := erase_values_keep l idxs
  refine ⟨h, ?_, ?_⟩
  · rw [h, keepAux_length]
  · rw [h]
    exact keepAux_sublist l 1 idxs

theorem scan_fold (fs : FsEnv) (key : WStr) (existing : List WStr) :
    ∀ (list : List WStr) (b : Bool) (ms : List ErrMsg),
    list.foldl
      (fun (acc : Bool × List ErrMsg) dir =>
        let r := path_entry_check fs existing key dir
        (acc.1 || r.1, acc.2 ++ r.2)) (b, ms)
    = (b || list.any (fun d => (path_entry_check fs existing key d).1),
       ms ++ (list.map (fun d => (path_entry_check fs existing key d).2)).flatten) := by
  intro list
  induction list with
  | nil =>
    intro b ms
    simp
  | cons d rest ih =>
    intro b ms
    rw [List.foldl_cons, ih]
    simp [Bool.or_assoc]

theorem path_entry_msg_count (fs : FsEnv) (key existing_d : WStr)
    (existing : List WStr) :
    ((path_entry_check fs existing key existing_d).2).countP isPathErrorMsg
      = (if (path_entry_check fs existing key existing_d).1 then 0 else 1) := by
  rw [path_entry_check]
  split
  · simp
  · split
    · simp
    · cases hcs : colon_suffix existing_d <;> simp [isPathErrorMsg, List.countP_cons]

theorem countP_path_msgs (fs : FsEnv) (key : WStr) (existing : List WStr) :
    ∀ (list : List WStr),
    ((list.map (fun d => (path_entry_check fs existing key d).2)).flatten).countP
        isPathErrorMsg
      = list.countP (fun d => !(path_entry_check fs existing key d).1) := by
  intro list
  induction list with
  | nil => simp
  | cons d rest ih =>
    simp only [List.map_cons, List.flatten_cons, List.countP_append, ih, List.countP_cons,
      path_entry_msg_count]
    cases h : (path_entry_check fs existing key d).1 <;> simp [h] <;> omega

/-- C6: for a path-like variable (PATH, CDPATH) with a cooperative store, the
assignment fails if and only if the value list is non-empty and no value passed
validation; values not starting with `/` or already present in the existing
default-scope value always pass; and the error stream carries exactly one per-entry
warning for each failing value (warnings never abort a partially successful
assignment). -/
theorem c6_path_any_success (fs : FsEnv) (store : Store) (key : WStr) (list : List WStr)
    (hpath : is_path_variable key = true) (hok : store.setRet = EnvSetRet.ok) :
    ((my_env_set fs store key list).1 ≠ 0 ↔
      (list ≠ [] ∧
        ∀ d ∈ list,
          (path_entry_check fs ((store.defaultGet key).getD []) key d).1 = false)) ∧
    (∀ d ∈ list, (starts_with_slash d = false ∨ d ∈ (store.defaultGet key).getD []) →
      (path_entry_check fs ((store.defaultGet key).getD []) key d).1 = true) ∧
    (my_env_set fs store key list).2.countP isPathErrorMsg
      = list.countP
          (fun d => !(path_entry_check fs ((store.defaultGet key).getD []) key d).1) := by
  have hmain : my_env_set fs store key list =
      (if list.isEmpty = false ∧
          (list.any (fun d =>
            (path_entry_check fs ((store.defaultGet key).getD []) key d).1)) = false
       then (1, (list.map (fun d =>
          (path_entry_check fs ((store.defaultGet key).getD []) key d).2)).flatten)
       else (0, (list.map (fun d =>
          (path_entry_check fs ((store.defaultGet key).getD []) key d).2)).flatten)) := by
    simp only [my_env_set, hpath, if_true,
      scan_fold fs key ((store.defaultGet key).getD []) list false [],
      Bool.false_or, List.nil_append, env_set_result, hok]
  refine ⟨?_, ?_, ?_⟩
  · rw [hmain]
    split
    next hcond =>
      simp only [ne_eq, one_ne_zero, not_false_eq_true, true_iff]
      refine ⟨?_, ?_⟩
      · intro hnil
        rw [hnil] at hcond
        simp at hcond
      · intro d hd
        have := List.any_eq_false.mp hcond.2 d hd
        simpa using this
    next hcond =>
      simp only [ne_eq, not_true_eq_false, false_iff, not_and]
      intro hne hall
      apply hcond
      refine ⟨?_, ?_⟩
      · cases list with
        | nil => exact absurd rfl hne
        | cons x xs => rfl
      · rw [List.any_eq_false]
        intro d hd
        simp [hall d hd]
  · intro d hd hcond
    rw [path_entry_check, if_pos hcond]
  · rw [hmain]
    split
    next => exact countP_path_msgs fs key ((store.defaultGet key).getD []) list
    next => exact countP_path_msgs fs key ((store.defaultGet key).getD []) list

theorem c6_path_any_success_witness :
    (is_path_variable "PATH".toList = true ∧ store_path.setRet = EnvSetRet.ok) ∧
    (my_env_set fs_none store_path "PATH".toList
        ["/not/a/dir".toList, "/usr".toList]).2.countP isPathErrorMsg
      = (["/not/a/dir".toList, "/usr".toList]).countP
          (fun d =>
            !(path_entry_check fs_none ((store_path.defaultGet "PATH".toList).getD [])
              "PATH".toList d).1) :=
  ⟨⟨by decide, by decide⟩,
    (c6_path_any_success fs_none store_path "PATH".toList
      ["/not/a/dir".toList, "/usr".toList] (by decide) (by decide)).2.2⟩

theorem query_mode_acc (store : Store) :
    ∀ (args : List WStr) (ret : Nat),
    (∀ arg ∈ args, '[' ∈ arg →
      (parse_index arg (arg.takeWhile (fun c => c ≠ '['))
        ((store.get (arg.takeWhile (fun c => c ≠ '['))).getD []).length).1 ≠ 0) →
    query_mode store args ret = ret + (args.map (missCountSpec store)).sum := by
  intro args
  induction args with
  | nil =>
    intro ret _
    simp [query_mode]
  | cons arg rest ih =>
    intro ret hok
    have harg := hok arg (by simp)
    have hrest : ∀ a ∈ rest, '[' ∈ a →
        (parse_index a (a.takeWhile (fun c => c ≠ '['))
          ((store.get (a.takeWhile (fun c => c ≠ '['))).getD []).length).1 ≠ 0 :=
      fun a ha h => hok a (by simp [ha]) h
    simp only [query_mode]
    by_cases hbr : '[' ∈ arg
    · rw [if_pos hbr, if_neg (harg hbr), ih _ hrest]
      simp only [List.map_cons, List.sum_cons, missCountSpec, if_pos hbr]
      omega
    · rw [if_neg hbr, ih _ hrest]
      simp only [List.map_cons, List.sum_cons, missCountSpec, if_neg hbr]
      split <;> omega

/-- C8: in query mode the exit status is the count, over all named targets, of
requested things that do not exist -- 1 for an absent bare name, and for a sliced name
the number of parsed indices below 1 or above the array's current length; querying a
nonexistent `foo` gives 1, and `foo[1 2]` on a one-element `foo` gives 1. -/
theorem c8_query_counts (store : Store) (args : List WStr)
    (hok : ∀ arg ∈ args, '[' ∈ arg →
      (parse_index arg (arg.takeWhile (fun c => c ≠ '['))
        ((store.get (arg.takeWhile (fun c => c ≠ '['))).getD []).length).1 ≠ 0) :
    query_mode store args 0 = (args.map (missCountSpec store)).sum ∧
    query_mode store_empty ["foo".toList] 0 = 1 ∧
    query_mode store_foo1 ["foo[1 2]".toList] 0 = 1 := by
  refine ⟨?_, by decide, by decide⟩
  have h := query_mode_acc store args 0 hok
  simpa using h

theorem c8_query_counts_witness :
    (∀ arg ∈ ["foo[1 2]".toList], '[' ∈ arg →
      (parse_index arg (arg.takeWhile (fun c => c ≠ '['))
        ((store_foo1.get (arg.takeWhile (fun c => c ≠ '['))).getD []).length).1 ≠ 0) ∧
    query_mode store_foo1 ["foo[1 2]".toList] 0
      = ((["foo[1 2]".toList]).map (missCountSpec store_foo1)).sum :=
  ⟨by decide, (c8_query_counts store_foo1 ["foo[1 2]".toList] (by decide)).1⟩

theorem slice_parse_loop_err (erase : Bool) (dest : WStr) (var_count : Nat) :
    ∀ (args : List WStr) (acc : List Int),
    (slice_parse_loop erase dest var_count args acc).1 = none →
    (slice_parse_loop erase dest var_count args acc).2 ≠ [] := by
  intro args
  induction args with
  | nil =>
    intro acc h
    simp [slice_parse_loop] at h
  | cons arg rest ih =>
    intro acc h
    simp only [slice_parse_loop] at h ⊢
    by_cases hp : (parse_index arg dest var_count).1 = 0
    · rw [if_pos hp] at h ⊢
      simp
    · rw [if_neg hp] at h ⊢
      by_cases he : erase = true
      · rw [if_pos he] at h ⊢
        have hr := ih (acc ++ (parse_index arg dest var_count).2.1) h
        intro hc
        exact hr (List.append_eq_nil.mp hc).2
      · rw [if_neg he] at h ⊢
        by_cases hlt : rest.length < (acc ++ (parse_index arg dest var_count).2.1).length
        · rw [if_pos hlt] at h ⊢
          simp
        · rw [if_neg hlt] at h ⊢
          by_cases heq : rest.length = (acc ++ (parse_index arg dest var_count).2.1).length
          · rw [if_pos heq] at h
            simp at h
          · rw [if_neg heq] at h ⊢
            have hr := ih (acc ++ (parse_index arg dest var_count).2.1) h
            intro hc
            exact hr (List.append_eq_nil.mp hc).2

/-- C9 counterexample: slice-erasing a variable that does not exist (`set -e foo[1]`
with `foo` unset) returns failure status 1 with an empty error stream -- this error
path writes no message at all, contradicting the claim that every failing invocation
prints at least one prefixed message. -/
theorem c9_counterexample :
    (set_slice_mode fs_none store_empty true 0 "foo[1]".toList []).status = 1 ∧
    (set_slice_mode fs_none store_empty true 0 "foo[1]".toList []).errs = [] := by decide

/-- C9 amended: in slice mode (with incoming status 0), every invocation that completes
with a nonzero status has at least one message on the error stream (each modelled
message carries the command-name prefix of its source format string), EXCEPT slice-erase
on a variable that does not exist, which fails with status 1 and no message. -/
theorem c9_amended (fs : FsEnv) (store : Store) (erase : Bool) (destArg : WStr)
    (rest : List WStr)
    (hfail : (set_slice_mode fs store erase 0 destArg rest).status ≠ 0) :
    (set_slice_mode fs store erase 0 destArg rest).errs ≠ [] ∨
      (erase = true ∧ store.get (destArg.takeWhile (fun c => c ≠ '[')) = none) := by
  simp only [set_slice_mode] at hfail ⊢
  by_cases hmiss :
      (Option.isNone (store.get (destArg.takeWhile (fun c => c ≠ '[')))) = true ∧ erase = true
  · exact Or.inr ⟨hmiss.2, Option.isNone_iff_eq_none.mp hmiss.1⟩
  · rw [if_neg hmiss] at hfail ⊢
    left
    cases hsp : slice_parse_loop erase (destArg.takeWhile (fun c => c ≠ '['))
        ((store.get (destArg.takeWhile (fun c => c ≠ '['))).getD []).length
        (destArg :: rest) [] with
    | mk o msgs =>
      cases o with
      | none =>
        have hne := slice_parse_loop_err erase (destArg.takeWhile (fun c => c ≠ '['))
          ((store.get (destArg.takeWhile (fun c => c ≠ '['))).getD []).length
          (destArg :: rest) [] (by rw [hsp])
        rw [hsp] at hne
        simpa using hne
      | some pair =>
        obtain ⟨idxs, values⟩ := pair
        exfalso
        apply hfail
        rw [hsp]
        by_cases he : erase = true
        · simp [he, final_status]
        · simp only [Bool.not_eq_true] at he
          simp [he, final_status]

theorem c9_amended_witness :
    ((set_slice_mode fs_none store_empty true 0 "foo[1]".toList []).status ≠ 0) ∧
    ((set_slice_mode fs_none store_empty true 0 "foo[1]".toList []).errs ≠ [] ∨
      (true = true ∧ store_empty.get ("foo[1]".toList.takeWhile (fun c => c ≠ '[')) = none)) :=
  ⟨by decide, c9_amended fs_none store_empty true "foo[1]".toList [] (by decide)⟩

theorem insert_sorted_mem (y : WStr) : ∀ (l : List WStr) (x : WStr),
    x ∈ insert_sorted y l ↔ x = y ∨ x ∈ l := by
  intro l
  induction l with
  | nil => intro x; simp [insert_sorted]
  | cons a t ih =>
    intro x
    simp only [insert_sorted]
    split
    · simp only [List.mem_cons]
    · simp only [List.mem_cons, ih]
      tauto

theorem sort_names_mem : ∀ (l : List WStr) (x : WStr), x ∈ sort_names l ↔ x ∈ l := by
  intro l
  induction l with
  | nil => intro x; simp [sort_names]
  | cons a t ih =>
    intro x
    show x ∈ insert_sorted a (sort_names t) ↔ x ∈ a :: t
    rw [insert_sorted_mem a (sort_names t) x, ih x]
    simp only [List.mem_cons]

theorem foldl_print_acc (b1 b2 sh : Bool) (rawOf : WStr → Option WStr)
    (escK escV : WStr → WStr) :
    ∀ (l : List WStr) (acc : WStr),
    l.foldl (fun acc key => acc ++ print_one_var b1 b2 sh escK escV rawOf key) acc
      = acc ++ (l.map (print_one_var b1 b2 sh escK escV rawOf)).flatten := by
  intro l
  induction l with
  | nil => intro acc; simp
  | cons a t ih =>
    intro acc
    rw [List.foldl_cons, ih]
    simp

theorem print_variables_eq_flatten (b1 b2 sh : Bool) (names : List WStr)
    (rawOf : WStr → Option WStr) (escK escV : WStr → WStr) :
    print_variables b1 b2 sh names rawOf escK escV
      = ((sort_names names).map (print_one_var b1 b2 sh escK escV rawOf)).flatten := by
  rw [print_variables, foldl_print_acc]
  simp

/-- C10: when printing variables with values and shortening enabled (`--long` absent),
a value longer than 64 characters is printed as (the display escape of) its first 60
characters followed by a single ellipsis character; with `--long`
(`shorten_ok = false`), the full value is printed untruncated.  The per-variable line
appears verbatim inside the `print_variables` output for every listed name. -/
theorem c10_shortening (escK escV : WStr → WStr) (rawOf : WStr → Option WStr)
    (names : List WStr) (key v : WStr)
    (hv : rawOf key = some v) (hkey : key ∈ names) :
    (64 < v.length →
      print_one_var true true true escK escV rawOf key
        = escK key ++ [' '] ++ escV (v.take 60) ++ [ellipsis_char] ++ ['\n'] ∧
      (v.take 60).length = 60 ∧
      ∃ pre post, print_variables true true true names rawOf escK escV
        = pre ++ (escK key ++ [' '] ++ escV (v.take 60) ++ [ellipsis_char] ++ ['\n']) ++ post) ∧
    (print_one_var true true false escK escV rawOf key
      = escK key ++ [' '] ++ escV v ++ ['\n'] ∧
     ∃ pre post, print_variables true true false names rawOf escK escV
       = pre ++ (escK key ++ [' '] ++ escV v ++ ['\n']) ++ post) := by
  have hmem : key ∈ sort_names names := (sort_names_mem names key).mpr hkey
  obtain ⟨s, t, hst⟩ := List.append_of_mem hmem
  constructor
  · intro h64
    have hone : print_one_var true true true escK escV rawOf key
        = escK key ++ [' '] ++ escV (v.take 60) ++ [ellipsis_char] ++ ['\n'] := by
      simp [print_one_var, hv, h64, List.append_assoc]
    refine ⟨hone, ?_, ?_⟩
    · rw [List.length_take]
      omega
    · refine ⟨((s.map (print_one_var true true true escK escV rawOf))).flatten,
        ((t.map (print_one_var true true true escK escV rawOf))).flatten, ?_⟩
      rw [print_variables_eq_flatten, hst, ← hone]
      simp
  · have hone : print_one_var true true false escK escV rawOf key
        = escK key ++ [' '] ++ escV v ++ ['\n'] := by
      simp [print_one_var, hv, List.append_assoc]
    refine ⟨hone, ?_⟩
    refine ⟨((s.map (print_one_var true true false escK escV rawOf))).flatten,
      ((t.map (print_one_var true true false escK escV rawOf))).flatten, ?_⟩
    rw [print_variables_eq_flatten, hst, ← hone]
    simp

theorem c10_shortening_witness :
    (rawOf_long "K".toList = some (List.replicate 65 'a') ∧
      "K".toList ∈ ["K".toList] ∧ 64 < (List.replicate 65 'a').length) ∧
    print_one_var true true true id id rawOf_long "K".toList
      = id "K".toList ++ [' '] ++ id ((List.replicate 65 'a').take 60)
          ++ [ellipsis_char] ++ ['\n'] :=
  ⟨⟨by decide, by decide, by decide⟩,
    ((c10_shortening id id rawOf_long ["K".toList] "K".toList (List.replicate 65 'a')
      (by decide) (by decide)).1 (by decide)).1⟩
